import Mathlib

/-!
Shallow embedding of the selection-tree engine and serializer of the
mrab-project-to-text VS Code extension, for checking its specification.

Sources embedded:
- `src/utils.ts` (src/unnamed/part_001): `toBraceExpandedPattern`, the
  recursive brace expansion.
- `src/generate.ts`: `generateStructuredText`.
- `src/projectFileProvider.ts`: `FileNode`, `buildFileTree`'s `addNode`,
  `sortNodes`, `toggleFile`, `getSelectedFiles`.

Modelling conventions:
- A `vscode.Uri` is represented by its workspace-relative path string;
  `vscode.workspace.asRelativePath` is the identity on these.
- `openTextDocument` (the content read) is an injected
  `String → Except String String`: `Except.error e` models a thrown error
  whose string interpolation is `e`.
- JavaScript string comparison (`<`, and `localeCompare` as the code uses
  it on plain ASCII path segments) is modelled by code-point lexicographic
  order `charsLe`; `Array.prototype.sort`, a stable comparator sort, is
  modelled by the stable insertion sort `insSort` (every stable sort agrees
  with it on a consistent comparator).
- `TreeItemCollapsibleState` is `CState`; `buildFileTree` gives directories
  `collapsed` and files `noneSt`, and `sortNodes` tests for `collapsed`
  exactly as the source compares against `Collapsed`.
- The regexes of the source are translated to explicit character-list
  scanners, documented at each definition; patterns are assumed free of
  line terminators (they are glob patterns and paths).
-/

/- ## Generic string and sorting infrastructure -/

/-- Code-point lexicographic comparison of character lists: the order JS
uses for `Array.prototype.sort()` without a comparator (and, on the ASCII
path segments this extension compares, also what `localeCompare` returns). -/
def charsLe : List Char → List Char → Bool
  | [], _ => true
  | _ :: _, [] => false
  | a :: as, b :: bs =>
    if a.val < b.val then true
    else if b.val < a.val then false
    else charsLe as bs

/-- Lexicographic order on strings, via `charsLe`. -/
def strLeB (a b : String) : Bool := charsLe a.data b.data

/-- Insert into a sorted list: keeps `a` after every element it is not
`le`-below, as a stable comparator sort places it. -/
def ordInsert (le : α → α → Bool) (a : α) : List α → List α
  | [] => [a]
  | b :: l => if le a b then a :: b :: l else b :: ordInsert le a l

/-- Stable insertion sort: the result of any stable comparator sort
(JS `Array.prototype.sort`) with a consistent comparator `le`. -/
def insSort (le : α → α → Bool) : List α → List α
  | [] => []
  | a :: l => ordInsert le a (insSort le l)

/-- Adjacent-pairs sortedness. -/
def adjSorted (le : α → α → Bool) : List α → Bool
  | [] => true
  | [_] => true
  | a :: b :: l => le a b && adjSorted le (b :: l)

/-- The serializer's `fileUris.map(asRelativePath).sort()`. -/
def sortStrings (l : List String) : List String := insSort strLeB l

/-- Split a character list at every separator, JS `String.prototype.split`
semantics: n separators give n+1 pieces, the empty list gives one empty
piece. -/
def splitSegsBy (p : Char → Bool) : List Char → List (List Char)
  | [] => [[]]
  | c :: rest =>
    if p c then [] :: splitSegsBy p rest
    else
      match splitSegsBy p rest with
      | [] => [[c]]
      | h :: t => (c :: h) :: t

/-- The path separators of the source's `split(/[\\/]/)`. -/
def isSep (c : Char) : Bool := c = '/' || c = '\\'

/-- `relPath.split(/[\\/]/)`. -/
def splitPath (s : String) : List String := (splitSegsBy isSep s.data).map String.mk

/-- Concatenation of a list of strings. -/
def concatAll : List String → String
  | [] => ""
  | s :: t => s ++ concatAll t

/-- Substring (contiguous) relation on strings. -/
def strInfix (a b : String) : Prop := ∃ s t, b.data = s ++ a.data ++ t

/- ## Brace expansion (src/utils.ts, toBraceExpandedPattern) -/

/-- Scan up to the first brace character; succeed with (interior, rest)
iff that brace closes. This is how the regex piece `\x7b([^\x7b\x7d]*)\x7d`
matches at a fixed position: the starred class stops at the first brace,
which must then be a closing one. -/
def scanFlat : List Char → Option (List Char × List Char)
  | [] => none
  | c :: rest =>
    if c = '}' then some ([], rest)
    else if c = '{' then none
    else (scanFlat rest).map (fun pr => (c :: pr.1, pr.2))

/-- The source's `/^(.*?)(\x7b([^\x7b\x7d]*)\x7d)(.*)$/.exec(pattern)`:
the lazy prefix finds the leftmost opening brace whose next brace character
closes it; returns (prefix, interior, suffix). -/
def findGroup : List Char → Option (List Char × List Char × List Char)
  | [] => none
  | c :: rest =>
    if c = '{' then
      match scanFlat rest with
      | some pr => some ([], pr.1, pr.2)
      | none => (findGroup rest).map (fun t => (c :: t.1, t.2.1, t.2.2))
    else (findGroup rest).map (fun t => (c :: t.1, t.2.1, t.2.2))

/-- JS `choices.split(',')`: n commas give n+1 pieces. -/
def splitComma : List Char → List (List Char)
  | [] => [[]]
  | c :: rest =>
    if c = ',' then [] :: splitComma rest
    else
      match splitComma rest with
      | [] => [[c]]
      | h :: t => (c :: h) :: t

/-- The whitespace `String.prototype.trim` strips (the characters that can
occur in these patterns). -/
def isWsp (c : Char) : Bool := c = ' ' || c = '\t' || c = '\n' || c = '\r'

/-- JS `choice.trim()`. -/
def trimChars (l : List Char) : List Char :=
  ((l.dropWhile isWsp).reverse.dropWhile isWsp).reverse

/-- The source's `if (!expanded.includes(part)) expanded.push(part)`. -/
def pushUnique (acc : List (List Char)) (x : List Char) : List (List Char) :=
  if x ∈ acc then acc else acc ++ [x]

/-- Recursive expansion with a fuel bound on the recursion depth. Each
recursive call removes the two brace characters of the resolved group, so
the string shrinks by at least two and `s.length` fuel always suffices;
the fuel-0 branch is unreachable from `toBraceExpandedPattern`. -/
def expandGo : Nat → List Char → List (List Char)
  | 0, s => [s]
  | fuel + 1, s =>
    match findGroup s with
    | none => [s]
    | some (pre, interior, suf) =>
      (splitComma interior).foldl
        (fun acc choice =>
          (expandGo fuel (pre ++ trimChars choice ++ suf)).foldl pushUnique acc)
        []

/-- `toBraceExpandedPattern` of src/utils.ts: recursively expands the first
resolvable brace group, splitting its interior on commas, trimming each
alternative, and deduplicating results in first-seen order. -/
def toBraceExpandedPattern (p : String) : List String :=
  (expandGo p.data.length p.data).map String.mk

/-- Balanced-brace predicate, stated from the specification's wording
("braces are unbalanced"): every closing brace has an open one pending and
none is left open at the end. Used only to state what the spec claims about
malformed patterns; the source has no such check. -/
def balancedBraces (s : String) : Bool := go s.data 0
where
  go : List Char → Nat → Bool
    | [], 0 => true
    | [], _ + 1 => false
    | c :: rest, d =>
      if c = '{' then go rest (d + 1)
      else if c = '}' then
        match d with
        | 0 => false
        | d + 1 => go rest d
      else go rest d

/- ## Serializer (src/generate.ts, generateStructuredText) -/

/-- `content.replace(/\r\n/g, '\n')`: global left-to-right replacement. -/
def normEOL : List Char → List Char
  | [] => []
  | '\r' :: '\n' :: rest => '\n' :: normEOL rest
  | c :: rest => c :: normEOL rest

/-- One line under `.replace(/[ \t]+$/gm, '')`: trailing spaces and tabs
removed. -/
def stripLine (l : List Char) : List Char :=
  (l.reverse.dropWhile (fun c => c = ' ' || c = '\t')).reverse

/-- Rejoin split lines with newlines. -/
def joinLines : List (List Char) → List Char
  | [] => []
  | [l] => l
  | l :: rest => l ++ '\n' :: joinLines rest

/-- The source's two replaces on a document's text: CRLF normalised to LF,
then trailing horizontal whitespace stripped from every line. -/
def contentTransform (s : String) : String :=
  String.mk (joinLines ((splitSegsBy (fun c => c = '\n') (normEOL s.data)).map stripLine))

/-- `relPath.split('.').pop()?.toLowerCase() || ''`: the last piece of the
dot-split (the whole path when no dot occurs), lower-cased. -/
def lastExt (rp : String) : String :=
  (((splitSegsBy (fun c => c = '.') rp.data).map String.mk).getLastD ("")).toLower

/-- The source's extension-to-fence-tag table. -/
def langOf (ext : String) : String :=
  if ext = "ts" then "typescript" else if ext = "js" then "javascript" else ""

/-- One iteration of the serializer's content loop: begin marker, the
transformed content (fenced when the extension maps to a language), or the
inline error notice when the read fails, then the end marker. -/
def fileBlock (prov : String → Except String String) (rp : String) : String :=
  "# BEGIN FILE: " ++ rp ++ "\n" ++
  (match prov rp with
   | Except.ok text =>
     let content := contentTransform text
     let lang := langOf (lastExt rp)
     if lang ≠ "" then "```" ++ lang ++ "\n" ++ content ++ "\n```\n"
     else content ++ "\n"
   | Except.error e => "((Could not read file content: " ++ e ++ "))\n") ++
  "# END FILE: " ++ rp ++ "\n\n"

/-- `cumulativePath = cumulativePath ? cumulativePath + '/' + segment : segment`. -/
def joinCum (cum seg : String) : String :=
  if cum = "" then seg else cum ++ "/" ++ seg

/-- The inner segment loop of the tree listing: one `- folder:` line per
first-seen cumulative directory path, indent grown two spaces per level,
one `- file:` line for the last segment; returns the emitted text and the
updated printed-directories set. -/
def emitSegs : List String → String → String → List String → (String × List String)
  | [], _, _, printed => ("", printed)
  | [seg], indent, _, printed => (indent ++ "- file: " ++ seg ++ "\n", printed)
  | seg :: s2 :: rest, indent, cum, printed =>
    let cum2 := joinCum cum seg
    if printed.contains cum2 then
      emitSegs (s2 :: rest) (indent ++ "  ") cum2 printed
    else
      let r := emitSegs (s2 :: rest) (indent ++ "  ") cum2 (printed ++ [cum2])
      (indent ++ "- folder: " ++ seg ++ "/\n" ++ r.1, r.2)

/-- The outer loop of the tree listing over the sorted relative paths,
threading the printed-directories set. -/
def treeLoop : List String → List String → String
  | [], _ => ""
  | p :: ps, printed =>
    let r := emitSegs (splitPath p) "" "" printed
    r.1 ++ treeLoop ps r.2

/-- The fixed preamble prepended last by the source. -/
def summaryText : String :=
  "# PROJECT-TO-TEXT OUTPUT\n" ++
  "This file contains the structure and contents of the selected project files.\n" ++
  "Each file is delimited with clear markers.\n\n"

/-- `generateStructuredText` of src/generate.ts. `hasWorkspace` models the
`vscode.workspace.workspaceFolders` presence check; `prov` the
`openTextDocument` read. The tree listing walks the sorted relative paths;
the content loop walks `fileUris` as given. -/
def generateStructuredText (hasWorkspace : Bool)
    (prov : String → Except String String) (fileUris : List String) : String :=
  if hasWorkspace then
    let treeText := "# Project Structure\n" ++ treeLoop (sortStrings fileUris) []
    let combined := fileUris.foldl (fun acc rp => acc ++ fileBlock prov rp) (treeText ++ "\n")
    summaryText ++ combined
  else ""

/- ## The node model (src/projectFileProvider.ts) -/

/-- `vscode.TreeItemCollapsibleState`, as far as the provider uses it. -/
inductive CState where
  | noneSt
  | collapsed
  | expanded
deriving DecidableEq, Repr

/-- `FileNode`: label, uri (its workspace-relative path), collapsible
state, the `selected` flag, and the optional `children` array (`none`
models the field being undefined, as on file nodes). -/
inductive FileNode where
  | mk (label : String) (uri : String) (state : CState) (selected : Bool)
       (children : Option (List FileNode))

def FileNode.label : FileNode → String
  | .mk l _ _ _ _ => l

def FileNode.uri : FileNode → String
  | .mk _ u _ _ _ => u

def FileNode.state : FileNode → CState
  | .mk _ _ st _ _ => st

def FileNode.selected : FileNode → Bool
  | .mk _ _ _ s _ => s

def FileNode.children : FileNode → Option (List FileNode)
  | .mk _ _ _ _ c => c

/-- `collapsibleState === TreeItemCollapsibleState.Collapsed`, the
directory test `sortNodes` uses. -/
def isDirB (n : FileNode) : Bool := n.state = CState.collapsed

/-- The comparator of `sortNodes` as a boolean order: directories first,
then label order (`localeCompare`, modelled by `strLeB`). -/
def nodeLE (a b : FileNode) : Bool :=
  if isDirB a && !isDirB b then true
  else if !isDirB a && isDirB b then false
  else strLeB a.label b.label

/- `sortNodes` applied to one node's children, recursively; see
`sortForest`. The comparator reads only `label` and `state`, which the
child recursion preserves, so sorting after recursing equals the source's
sort-then-recurse. -/
mutual
def sortNode : FileNode → FileNode
  | .mk l u st sel none => .mk l u st sel none
  | .mk l u st sel (some cs) => .mk l u st sel (some (insSort nodeLE (sortForestAux cs)))
def sortForestAux : List FileNode → List FileNode
  | [] => []
  | n :: ns => sortNode n :: sortForestAux ns
end

/-- `sortNodes` on a whole forest: sort this level with the comparator and
every descendant level recursively. -/
def sortForest (nodes : List FileNode) : List FileNode := insSort nodeLE (sortForestAux nodes)

/-- The ordering the specification claims of one adjacent pair: no file
before a directory, and label order within a kind. -/
def levelPairOK (a b : FileNode) : Bool :=
  (isDirB a || !isDirB b) &&
  (if isDirB a = isDirB b then strLeB a.label b.label else true)

/- The specification's recursive ordering invariant: every level is an
ordered chain and every child list satisfies it recursively. -/
mutual
def nodeOrd : FileNode → Bool
  | .mk _ _ _ _ none => true
  | .mk _ _ _ _ (some cs) => forestOrd cs
def forestOrd : List FileNode → Bool
  | [] => true
  | [n] => nodeOrd n
  | a :: b :: rest => levelPairOK a b && nodeOrd a && forestOrd (b :: rest)
end

/- ## Selection (getSelectedFiles) -/

/- `getSelectedFiles`'s collect: descend into a node with a nonempty
children array, otherwise push its uri when selected. -/
mutual
def getSelNode : FileNode → List String
  | .mk _ u _ sel ch =>
    match ch with
    | some cs =>
      if cs.length > 0 then getSelList cs
      else if sel then [u] else []
    | none => if sel then [u] else []
def getSelList : List FileNode → List String
  | [] => []
  | n :: ns => getSelNode n ++ getSelList ns
end

/- Depth-first pre-order enumeration of all nodes of a forest. -/
mutual
def preNode : FileNode → List FileNode
  | .mk l u st sel none => [.mk l u st sel none]
  | .mk l u st sel (some cs) => .mk l u st sel (some cs) :: preList cs
def preList : List FileNode → List FileNode
  | [] => []
  | n :: ns => preNode n ++ preList ns
end

/-- A node `getSelectedFiles` treats as a leaf: children absent or empty
(the source tests `node.children && node.children.length > 0`). -/
def leafLike (n : FileNode) : Bool :=
  match n.children with
  | none => true
  | some cs => cs.isEmpty

/- ## Toggling (toggleFile) -/

/- The recursion of `toggleFile`: overwrite `selected` with `b` on every
node of the forest, at every depth. -/
mutual
def setSelNode (b : Bool) : FileNode → FileNode
  | .mk l u st _ ch =>
    match ch with
    | none => .mk l u st b none
    | some cs => .mk l u st b (some (setSelList b cs))
def setSelList (b : Bool) : List FileNode → List FileNode
  | [] => []
  | n :: ns => setSelNode b n :: setSelList b ns
end

/-- `toggleFile`: flip the node's own flag and propagate the new value to
every descendant. -/
def toggleFile : FileNode → FileNode
  | .mk l u st sel ch =>
    match ch with
    | none => .mk l u st (!sel) none
    | some cs => .mk l u st (!sel) (some (setSelList (!sel) cs))

/- Whether every node of the forest, at every depth, has `selected = b`. -/
mutual
def allSelNode (b : Bool) : FileNode → Bool
  | .mk _ _ _ sel ch =>
    match ch with
    | none => sel = b
    | some cs => (sel = b) && allSelList b cs
def allSelList (b : Bool) : List FileNode → Bool
  | [] => true
  | n :: ns => allSelNode b n && allSelList b ns
end

/-- Whether every proper descendant of `n` has `selected = b`. -/
def descendantsAll (b : Bool) (n : FileNode) : Bool :=
  match n.children with
  | none => true
  | some cs => allSelList b cs

/-- The selected flag of a node's first child, if any: a projection used
to exhibit toggling behaviour on a concrete tree. -/
def firstChildSelected (n : FileNode) : Option Bool :=
  match n.children with
  | some (c :: _) => some c.selected
  | _ => none

/-- A directory whose single child diverges from it: the parent is
unselected, the child selected. -/
def exParent : FileNode :=
  .mk ("d") ("d") CState.collapsed false (some [.mk ("c") ("d/c") CState.noneSt true none])

/- ## Addressed mutation: toggleFile applied at a position in the tree -/

/-- Replace the element at an index, other positions untouched (the
aliasing of the source means `toggleFile(node)` rewrites exactly the
addressed subtree inside the provider's forest). -/
def modifyIdx (g : FileNode → FileNode) : Nat → List FileNode → List FileNode
  | _, [] => []
  | 0, n :: ns => g n :: ns
  | i + 1, n :: ns => n :: modifyIdx g i ns

/- Apply `toggleFile` to the node addressed by a child-index path:
the forest after the provider's `toggleFile(nodeAt p)`. An address with no
node is a no-op, matching that callers only pass nodes of the tree. -/
mutual
def toggleAt : List FileNode → List Nat → List FileNode
  | f, [] => f
  | f, [i] => modifyIdx toggleFile i f
  | [], _ :: _ :: _ => []
  | n :: ns, 0 :: j :: p => toggleDescend n (j :: p) :: ns
  | n :: ns, (i + 1) :: j :: p => n :: toggleAt ns (i :: j :: p)
termination_by f p => (p.length, sizeOf f)
def toggleDescend : FileNode → List Nat → FileNode
  | .mk l u st sel none, _ => .mk l u st sel none
  | .mk l u st sel (some cs), p => .mk l u st sel (some (toggleAt cs p))
termination_by n p => (p.length, sizeOf n)
end

/-- The node addressed by a nonempty child-index path. -/
def nodeAt : List FileNode → List Nat → Option FileNode
  | _, [] => none
  | f, [i] => f[i]?
  | f, i :: j :: p =>
    match f[i]? with
    | none => none
    | some n =>
      match n.children with
      | none => none
      | some cs => nodeAt cs (j :: p)

/-- The selected flag of the node addressed by a path. -/
def selectedAt (f : List FileNode) (p : List Nat) : Option Bool :=
  (nodeAt f p).map FileNode.selected

/- ## Building the tree (buildFileTree's addNode) -/

/-- Children-field replacement (the only mutation `addNode` performs on an
existing node). -/
def setChildren : FileNode → Option (List FileNode) → FileNode
  | .mk l u st sel _, ch => .mk l u st sel ch

/-- One `addNode(segments, fileUri, isSelected)` call: walk the segments,
reusing the node indexed by each cumulative directory path (the source's
`nodeIndex`; a node's index key equals its uri here, and a cumulative path
determines its level, so the per-level search is the same lookup), pushing
a new collapsed directory node at the end of the level when absent, and
always pushing a new file node for the last segment. Descending into a
node without a children array models the source's TypeError on
`nodeIndex[currentPath].children!` as `none`; the inner `nodes[idx]?`
fallback is unreachable since `findIdx?` returns in-range indices. -/
def insertPath : List FileNode → String → List String → String → Bool → Option (List FileNode)
  | nodes, _, [], _, _ => some nodes
  | nodes, _, [s], fileUri, sel =>
    some (nodes ++ [FileNode.mk s fileUri CState.noneSt sel none])
  | nodes, cum, s :: s2 :: rest, fileUri, sel =>
    let cum2 := joinCum cum s
    match nodes.findIdx? (fun n => n.uri == cum2) with
    | none =>
      (insertPath [] cum2 (s2 :: rest) fileUri sel).map
        (fun cs => nodes ++ [FileNode.mk s cum2 CState.collapsed false (some cs)])
    | some idx =>
      match nodes[idx]? with
      | none => none
      | some n =>
        match n.children with
        | none => none
        | some cs =>
          (insertPath cs cum2 (s2 :: rest) fileUri sel).map
            (fun cs2 => nodes.set idx (setChildren n (some cs2)))

/-- The `for (const fileUri of allFiles)` loop of `buildFileTree`: insert
every (relative path, isSelected) pair in order. -/
def insertAll : List FileNode → List (String × Bool) → Option (List FileNode)
  | forest, [] => some forest
  | forest, (p, sel) :: rest =>
    match insertPath forest "" (splitPath p) p sel with
    | none => none
    | some f2 => insertAll f2 rest

/-- `buildFileTree` from a list of (relative path, isSelected) pairs:
insert all paths, then `sortNodes(rootNodes)`. -/
def buildFileForest (paths : List (String × Bool)) : Option (List FileNode) :=
  (insertAll [] paths).map sortForest

/-- `getSelectedFiles()` run on the forest `buildFileTree` produces. -/
def selectedOfBuild (paths : List (String × Bool)) : Option (List String) :=
  (buildFileForest paths).map getSelList

/- ## Concrete inputs used to instantiate the claims -/

/-- A provider on which every read succeeds with the same content. -/
def okProv : String → Except String String := fun _ => Except.ok ("x")

/-- The read-failure scenario's provider: reading `bad.ts` fails, every
other read succeeds. -/
def exProv : String → Except String String := fun p =>
  if p = "bad.ts" then Except.error ("Error: fail to read") else Except.ok ("let x = 1;")

/-- A two-root forest: the divergent directory `exParent` and a selected
file beside it. -/
def exForest : List FileNode :=
  [exParent, FileNode.mk ("e") ("e") CState.noneSt true none]

/- ## Lemmas: the sorting infrastructure -/

theorem charsLe_total (a b : List Char) : charsLe a b || charsLe b a := by
  induction a generalizing b with
  | nil => simp [charsLe]
  | cons x xs ih =>
    cases b with
    | nil => simp [charsLe]
    | cons y ys =>
      simp only [charsLe]
      by_cases h1 : x.val < y.val
      · rw [if_pos h1]; simp
      · rw [if_neg h1]
        by_cases h2 : y.val < x.val
        · rw [if_pos h2, if_pos h2]; simp
        · rw [if_neg h1, if_neg h2, if_neg h2]
          exact ih ys

theorem strLeB_total (a b : String) : strLeB a b || strLeB b a := charsLe_total a.data b.data

theorem ordInsert_perm (le : α → α → Bool) (a : α) (l : List α) :
    (ordInsert le a l).Perm (a :: l) := by
  induction l with
  | nil => simp [ordInsert]
  | cons b t ih =>
    simp only [ordInsert]
    by_cases h : le a b
    · simp [h]
    · simp only [if_neg h]
      exact (ih.cons b).trans (List.Perm.swap a b t)

theorem insSort_perm (le : α → α → Bool) (l : List α) : (insSort le l).Perm l := by
  induction l with
  | nil => simp [insSort]
  | cons a t ih => exact (ordInsert_perm le a (insSort le t)).trans (ih.cons a)

theorem adjSorted_cons_cons (le : α → α → Bool) (a b : α) (l : List α) :
    adjSorted le (a :: b :: l) = (le a b && adjSorted le (b :: l)) := rfl

theorem adjSorted_ordInsert (le : α → α → Bool)
    (htot : ∀ a b, le a b || le b a) (a : α) (l : List α)
    (h : adjSorted le l = true) : adjSorted le (ordInsert le a l) = true := by
  induction l with
  | nil => simp [ordInsert, adjSorted]
  | cons b t ih =>
    simp only [ordInsert]
    by_cases hab : le a b
    · rw [if_pos hab, adjSorted_cons_cons, hab, Bool.true_and]
      exact h
    · simp only [if_neg hab]
      have hba : le b a = true := by
        have := htot a b
        simpa [hab] using this
      cases t with
      | nil => simp [ordInsert, adjSorted, hba]
      | cons c t2 =>
        rw [adjSorted_cons_cons, Bool.and_eq_true] at h
        obtain ⟨hbc, ht⟩ := h
        have hrec := ih ht
        simp only [ordInsert] at hrec ⊢
        by_cases hac : le a c
        · rw [if_pos hac] at hrec ⊢
          rw [adjSorted_cons_cons, hba, Bool.true_and]
          exact hrec
        · rw [if_neg hac] at hrec ⊢
          rw [adjSorted_cons_cons, hbc, Bool.true_and]
          exact hrec

theorem adjSorted_insSort (le : α → α → Bool)
    (htot : ∀ a b, le a b || le b a) (l : List α) :
    adjSorted le (insSort le l) = true := by
  induction l with
  | nil => rfl
  | cons a t ih => exact adjSorted_ordInsert le htot a _ ih

/- ## Lemmas: brace expansion -/

theorem pushUnique_ne_nil (acc : List (List Char)) (x : List Char) :
    pushUnique acc x ≠ [] := by
  unfold pushUnique
  by_cases h : x ∈ acc
  · rw [if_pos h]
    exact List.ne_nil_of_mem h
  · rw [if_neg h]
    simp

theorem foldl_pushUnique_ne_nil (l : List (List Char)) (acc : List (List Char))
    (h : acc ≠ []) : l.foldl pushUnique acc ≠ [] := by
  induction l generalizing acc with
  | nil => simpa using h
  | cons x t ih => exact ih (pushUnique acc x) (pushUnique_ne_nil acc x)

theorem foldl_pushUnique_ne_nil_of_arg (l : List (List Char)) (acc : List (List Char))
    (h : l ≠ []) : l.foldl pushUnique acc ≠ [] := by
  cases l with
  | nil => exact absurd rfl h
  | cons x t => exact foldl_pushUnique_ne_nil t _ (pushUnique_ne_nil acc x)

theorem splitComma_ne_nil (l : List Char) : splitComma l ≠ [] := by
  induction l with
  | nil => simp [splitComma]
  | cons c t ih =>
    simp only [splitComma]
    by_cases h : c = ','
    · rw [if_pos h]; simp
    · rw [if_neg h]
      cases hs : splitComma t with
      | nil => simp
      | cons a b => simp

theorem foldl_expand_preserve (g : List Char → List (List Char))
    (rest : List (List Char)) (acc : List (List Char)) (h : acc ≠ []) :
    rest.foldl (fun a choice => (g choice).foldl pushUnique a) acc ≠ [] := by
  induction rest generalizing acc with
  | nil => simpa using h
  | cons c t ih => exact ih _ (foldl_pushUnique_ne_nil (g c) acc h)

theorem expandGo_ne_nil (fuel : Nat) (s : List Char) : expandGo fuel s ≠ [] := by
  induction fuel generalizing s with
  | zero => simp [expandGo]
  | succ n ih =>
    rw [expandGo]
    cases h : findGroup s with
    | none => simp
    | some t =>
      obtain ⟨pre, interior, suf⟩ := t
      simp only
      cases hc : splitComma interior with
      | nil => exact absurd hc (splitComma_ne_nil interior)
      | cons c rest =>
        simp only [List.foldl_cons]
        exact foldl_expand_preserve _ rest _
          (foldl_pushUnique_ne_nil_of_arg _ [] (ih _))

/- ## Lemmas: the serializer -/

theorem strAppend_assoc (a b c : String) : (a ++ b) ++ c = a ++ (b ++ c) := by
  apply String.ext
  simp [String.data_append, List.append_assoc]

theorem strAppend_empty (a : String) : a ++ ("") = a := by
  apply String.ext
  simp [String.data_append]

theorem concatAll_append (a b : List String) :
    concatAll (a ++ b) = concatAll a ++ concatAll b := by
  induction a with
  | nil =>
    show concatAll b = ("") ++ concatAll b
    apply String.ext
    simp [String.data_append]
  | cons x t ih =>
    show x ++ concatAll (t ++ b) = (x ++ concatAll t) ++ concatAll b
    rw [ih, strAppend_assoc]

theorem foldl_append_block (g : String → String) (l : List String) (init : String) :
    l.foldl (fun acc rp => acc ++ g rp) init = init ++ concatAll (l.map g) := by
  induction l generalizing init with
  | nil => simp [concatAll, strAppend_empty]
  | cons x t ih =>
    simp only [List.foldl_cons, List.map_cons, concatAll, ih, strAppend_assoc]

theorem generate_decomp (prov : String → Except String String) (uris : List String) :
    generateStructuredText true prov uris =
      summaryText ++ (("# Project Structure\n" ++ treeLoop (sortStrings uris) [] ++ "\n")
        ++ concatAll (uris.map (fileBlock prov))) := by
  rw [generateStructuredText]
  simp only [if_pos rfl]
  rw [foldl_append_block]
  rw [strAppend_assoc]
  simp

theorem block_infix (prov : String → Except String String) (uris : List String)
    (q : String) (hq : q ∈ uris) :
    strInfix (fileBlock prov q) (generateStructuredText true prov uris) := by
  obtain ⟨l1, l2, rfl⟩ := List.append_of_mem hq
  rw [generate_decomp]
  refine ⟨(summaryText ++ ("# Project Structure\n" ++
      treeLoop (sortStrings (l1 ++ q :: l2)) [] ++ "\n")).data ++
      (concatAll (l1.map (fileBlock prov))).data,
    (concatAll (l2.map (fileBlock prov))).data, ?_⟩
  simp [String.data_append, List.map_append, concatAll_append, concatAll,
    List.append_assoc]

/- ## Lemmas: sorting the node forest -/

theorem nodeLE_total (a b : FileNode) : nodeLE a b || nodeLE b a := by
  unfold nodeLE
  cases ha : isDirB a <;> cases hb : isDirB b <;>
    simp [strLeB_total a.label b.label, strLeB_total b.label a.label]

theorem nodeLE_levelPairOK (a b : FileNode) (h : nodeLE a b = true) :
    levelPairOK a b = true := by
  unfold nodeLE at h
  unfold levelPairOK
  cases ha : isDirB a <;> cases hb : isDirB b <;> simp_all

theorem forestOrd_of_adj_mem (l : List FileNode)
    (hadj : adjSorted nodeLE l = true) (hmem : ∀ m ∈ l, nodeOrd m = true) :
    forestOrd l = true := by
  induction l with
  | nil => rfl
  | cons a t ih =>
    cases t with
    | nil =>
      show nodeOrd a = true
      exact hmem a (by simp)
    | cons b t2 =>
      rw [adjSorted_cons_cons, Bool.and_eq_true] at hadj
      obtain ⟨hle, hrest⟩ := hadj
      have hord := ih hrest (fun m hm => hmem m (List.mem_cons_of_mem a hm))
      show (levelPairOK a b && nodeOrd a && forestOrd (b :: t2)) = true
      rw [nodeLE_levelPairOK a b hle, hord, hmem a (by simp)]
      rfl

mutual
theorem sortNode_ord (n : FileNode) : nodeOrd (sortNode n) = true := by
  cases n with
  | mk l u st sel ch =>
    cases ch with
    | none => rfl
    | some cs =>
      show forestOrd (insSort nodeLE (sortForestAux cs)) = true
      apply forestOrd_of_adj_mem
      · exact adjSorted_insSort nodeLE nodeLE_total _
      · intro m hm
        rw [(insSort_perm nodeLE (sortForestAux cs)).mem_iff] at hm
        exact sortForestAux_ord cs m hm
theorem sortForestAux_ord (l : List FileNode) : ∀ m ∈ sortForestAux l, nodeOrd m = true := by
  cases l with
  | nil => intro m hm; simp [sortForestAux] at hm
  | cons n ns =>
    intro m hm
    rw [show sortForestAux (n :: ns) = sortNode n :: sortForestAux ns from rfl] at hm
    rcases List.mem_cons.mp hm with h | h
    · rw [h]; exact sortNode_ord n
    · exact sortForestAux_ord ns m h
end

theorem sortForest_ord (nodes : List FileNode) : forestOrd (sortForest nodes) = true := by
  unfold sortForest
  apply forestOrd_of_adj_mem
  · exact adjSorted_insSort nodeLE nodeLE_total _
  · intro m hm
    rw [(insSort_perm nodeLE (sortForestAux nodes)).mem_iff] at hm
    exact sortForestAux_ord nodes m hm

/- ## Lemmas: getSelectedFiles is the pre-order filter of leaf-like selected nodes -/

mutual
theorem getSelNode_pre (n : FileNode) :
    getSelNode n = ((preNode n).filter (fun m => leafLike m && m.selected)).map FileNode.uri := by
  cases n with
  | mk l u st sel ch =>
    cases ch with
    | none =>
      cases sel <;>
        simp [getSelNode, preNode, leafLike, FileNode.children, FileNode.selected,
          FileNode.uri, List.filter]
    | some cs =>
      cases cs with
      | nil =>
        cases sel <;>
          simp [getSelNode, preNode, preList, leafLike, FileNode.children,
            FileNode.selected, FileNode.uri, List.filter]
      | cons c cs2 =>
        have h1 : getSelNode (.mk l u st sel (some (c :: cs2))) = getSelList (c :: cs2) := by
          simp [getSelNode]
        have h2 : (fun m => leafLike m && m.selected)
            (FileNode.mk l u st sel (some (c :: cs2))) = false := by
          simp [leafLike, FileNode.children]
        rw [h1]
        rw [show preNode (.mk l u st sel (some (c :: cs2))) =
            (.mk l u st sel (some (c :: cs2))) :: preList (c :: cs2) from rfl]
        rw [List.filter_cons]
        simp only [h2, Bool.false_eq_true, if_false]
        exact getSelList_pre (c :: cs2)
theorem getSelList_pre (f : List FileNode) :
    getSelList f = ((preList f).filter (fun m => leafLike m && m.selected)).map FileNode.uri := by
  cases f with
  | nil => rfl
  | cons n ns =>
    show getSelNode n ++ getSelList ns = _
    rw [show preList (n :: ns) = preNode n ++ preList ns from rfl]
    rw [List.filter_append, List.map_append]
    rw [getSelNode_pre n, getSelList_pre ns]
end

/- ## Lemmas: toggling -/

mutual
theorem allSel_setSelNode (b : Bool) (n : FileNode) : allSelNode b (setSelNode b n) = true := by
  cases n with
  | mk l u st sel ch =>
    cases ch with
    | none => simp [setSelNode, allSelNode]
    | some cs =>
      show allSelNode b (.mk l u st b (some (setSelList b cs))) = true
      simp only [allSelNode, decide_eq_true_eq]
      rw [allSel_setSelList b cs]
      simp
theorem allSel_setSelList (b : Bool) (l : List FileNode) : allSelList b (setSelList b l) = true := by
  cases l with
  | nil => rfl
  | cons n ns =>
    show (allSelNode b (setSelNode b n) && allSelList b (setSelList b ns)) = true
    rw [allSel_setSelNode b n, allSel_setSelList b ns]
    rfl
end

theorem setSelList_eq_map (b : Bool) (l : List FileNode) :
    setSelList b l = l.map (setSelNode b) := by
  induction l with
  | nil => rfl
  | cons n ns ih =>
    show setSelNode b n :: setSelList b ns = _
    rw [ih]
    rfl

theorem setSelNode_selected (b : Bool) (n : FileNode) : (setSelNode b n).selected = b := by
  cases n with
  | mk l u st sel ch => cases ch <;> rfl

theorem toggleFile_selected (n : FileNode) : (toggleFile n).selected = !n.selected := by
  cases n with
  | mk l u st sel ch => cases ch <;> rfl

/- ## Lemmas: addressed toggling, frame and propagation -/

theorem getElem_opt_modifyIdx_self (g : FileNode → FileNode) (i : Nat) (l : List FileNode) :
    (modifyIdx g i l)[i]? = (l[i]?).map g := by
  induction l generalizing i with
  | nil => simp [modifyIdx]
  | cons n ns ih =>
    cases i with
    | zero => simp [modifyIdx]
    | succ i => simpa [modifyIdx] using ih i

theorem getElem_opt_modifyIdx_ne (g : FileNode → FileNode) (i j : Nat) (l : List FileNode)
    (h : i ≠ j) : (modifyIdx g i l)[j]? = l[j]? := by
  induction l generalizing i j with
  | nil => simp [modifyIdx]
  | cons n ns ih =>
    cases i with
    | zero =>
      cases j with
      | zero => exact absurd rfl h
      | succ j => simp [modifyIdx]
    | succ i =>
      cases j with
      | zero => simp [modifyIdx]
      | succ j => simpa [modifyIdx] using ih i j (by omega)

theorem toggleDescend_selected (n : FileNode) (p : List Nat) :
    (toggleDescend n p).selected = n.selected := by
  cases n with
  | mk l u st sel ch => cases ch <;> simp [toggleDescend, FileNode.selected]

theorem toggleDescend_none (l u : String) (st : CState) (sel : Bool) (p : List Nat) :
    toggleDescend (.mk l u st sel none) p = .mk l u st sel none := by
  simp [toggleDescend]

theorem toggleDescend_some (l u : String) (st : CState) (sel : Bool)
    (cs : List FileNode) (p : List Nat) :
    toggleDescend (.mk l u st sel (some cs)) p = .mk l u st sel (some (toggleAt cs p)) := by
  simp [toggleDescend]

theorem toggleAt_single (f : List FileNode) (i : Nat) :
    toggleAt f [i] = modifyIdx toggleFile i f := by
  simp [toggleAt]

theorem toggleAt_deep (f : List FileNode) (i j : Nat) (p : List Nat) :
    toggleAt f (i :: j :: p) = modifyIdx (fun n => toggleDescend n (j :: p)) i f := by
  induction f generalizing i with
  | nil => simp [toggleAt, modifyIdx]
  | cons n ns ih =>
    cases i with
    | zero => simp [toggleAt, modifyIdx]
    | succ i =>
      rw [show toggleAt (n :: ns) ((i + 1) :: j :: p) = n :: toggleAt ns (i :: j :: p) from by
        simp [toggleAt]]
      rw [ih i]
      rfl

theorem nodeAt_cons_cons (f : List FileNode) (i j : Nat) (p : List Nat) :
    nodeAt f (i :: j :: p) =
      match f[i]? with
      | none => none
      | some n =>
        match n.children with
        | none => none
        | some cs => nodeAt cs (j :: p) := rfl

theorem selectedAt_toggleAt_frame (p : List Nat) (f : List FileNode) (q : List Nat)
    (h : p.isPrefixOf q = false) :
    selectedAt (toggleAt f p) q = selectedAt f q := by
  induction p generalizing f q with
  | nil => simp [List.isPrefixOf] at h
  | cons i p2 ih =>
    cases p2 with
    | nil =>
      cases q with
      | nil => rfl
      | cons j q2 =>
        by_cases hij : i = j
        · subst hij
          simp [List.isPrefixOf] at h
        · rw [toggleAt_single]
          unfold selectedAt
          cases q2 with
          | nil =>
            show ((modifyIdx toggleFile i f)[j]?).map FileNode.selected =
              (f[j]?).map FileNode.selected
            rw [getElem_opt_modifyIdx_ne _ _ _ _ hij]
          | cons k q3 =>
            unfold nodeAt
            rw [getElem_opt_modifyIdx_ne _ _ _ _ hij]
    | cons j p3 =>
      cases q with
      | nil => rfl
      | cons k q2 =>
        by_cases hik : i = k
        · subst hik
          have hpre : (j :: p3).isPrefixOf q2 = false := by
            simpa [List.isPrefixOf] using h
          rw [toggleAt_deep]
          unfold selectedAt
          cases q2 with
          | nil =>
            show ((modifyIdx _ i f)[i]?).map FileNode.selected =
              (f[i]?).map FileNode.selected
            rw [getElem_opt_modifyIdx_self]
            cases hfi : f[i]? with
            | none => rfl
            | some n => simp [toggleDescend_selected]
          | cons m q3 =>
            unfold nodeAt
            rw [getElem_opt_modifyIdx_self]
            cases hfi : f[i]? with
            | none => rfl
            | some n =>
              simp only [Option.map_some']
              cases n with
              | mk l u st sel ch =>
                cases ch with
                | none => rw [toggleDescend_none]
                | some cs =>
                  rw [toggleDescend_some]
                  show (nodeAt (toggleAt cs (j :: p3)) (m :: q3)).map FileNode.selected =
                    (nodeAt cs (m :: q3)).map FileNode.selected
                  exact ih cs (m :: q3) hpre
        · rw [toggleAt_deep]
          unfold selectedAt
          cases q2 with
          | nil =>
            show ((modifyIdx _ i f)[k]?).map FileNode.selected =
              (f[k]?).map FileNode.selected
            rw [getElem_opt_modifyIdx_ne _ _ _ _ hik]
          | cons m q3 =>
            unfold nodeAt
            rw [getElem_opt_modifyIdx_ne _ _ _ _ hik]

theorem nodeAt_toggleAt_self (p : List Nat) (f : List FileNode) :
    nodeAt (toggleAt f p) p = (nodeAt f p).map toggleFile := by
  induction p generalizing f with
  | nil => rfl
  | cons i p2 ih =>
    cases p2 with
    | nil =>
      rw [toggleAt_single]
      show (modifyIdx toggleFile i f)[i]? = (f[i]?).map toggleFile
      exact getElem_opt_modifyIdx_self toggleFile i f
    | cons j p3 =>
      rw [toggleAt_deep]
      unfold nodeAt
      rw [getElem_opt_modifyIdx_self]
      cases hfi : f[i]? with
      | none => rfl
      | some n =>
        simp only [Option.map_some']
        cases n with
        | mk l u st sel ch =>
          cases ch with
          | none =>
            rw [toggleDescend_none]
            show none = Option.map toggleFile none
            rfl
          | some cs =>
            rw [toggleDescend_some]
            show nodeAt (toggleAt cs (j :: p3)) (j :: p3) =
              ((FileNode.mk l u st sel (some cs)).children.elim none
                (fun cs2 => nodeAt cs2 (j :: p3))).map toggleFile
            rw [ih cs]
            rfl

theorem selectedAt_toggleAt_self (p : List Nat) (f : List FileNode) :
    selectedAt (toggleAt f p) p = (selectedAt f p).map (fun b => !b) := by
  unfold selectedAt
  rw [nodeAt_toggleAt_self]
  cases nodeAt f p with
  | none => rfl
  | some n => simp [toggleFile_selected]

theorem nodeAt_setSelList (b : Bool) (cs : List FileNode) (r : List Nat) :
    (nodeAt (setSelList b cs) r).map FileNode.selected =
      (nodeAt cs r).map (fun _ => b) := by
  induction r generalizing cs with
  | nil => rfl
  | cons i r2 ih =>
    cases r2 with
    | nil =>
      show ((setSelList b cs)[i]?).map FileNode.selected = (cs[i]?).map (fun _ => b)
      rw [setSelList_eq_map, List.getElem?_map]
      cases cs[i]? with
      | none => rfl
      | some n => simp [setSelNode_selected]
    | cons j r3 =>
      unfold nodeAt
      rw [setSelList_eq_map, List.getElem?_map]
      cases hci : cs[i]? with
      | none => rfl
      | some n =>
        simp only [Option.map_some']
        cases n with
        | mk l u st sel ch =>
          cases ch with
          | none => rfl
          | some cs2 =>
            show (nodeAt (setSelList b cs2) (j :: r3)).map FileNode.selected =
              (nodeAt cs2 (j :: r3)).map (fun _ => b)
            exact ih cs2

theorem selectedAt_toggleAt_descend (p r : List Nat) (f : List FileNode) (sp : Bool)
    (hr : r ≠ []) (hp : selectedAt f p = some sp) :
    selectedAt (toggleAt f p) (p ++ r) = (selectedAt f (p ++ r)).map (fun _ => !sp) := by
  induction p generalizing f with
  | nil => simp [selectedAt, nodeAt] at hp
  | cons i p2 ih =>
    cases p2 with
    | nil =>
      unfold selectedAt at hp
      rw [show nodeAt f [i] = f[i]? from rfl] at hp
      cases hfi : f[i]? with
      | none => rw [hfi] at hp; simp at hp
      | some n =>
        rw [hfi] at hp
        have hsel : n.selected = sp := by simpa using hp
        cases r with
        | nil => exact absurd rfl hr
        | cons j r2 =>
          unfold selectedAt
          rw [toggleAt_single]
          rw [show ([i] ++ j :: r2) = i :: j :: r2 from rfl]
          rw [nodeAt_cons_cons, nodeAt_cons_cons, getElem_opt_modifyIdx_self, hfi]
          simp only [Option.map_some']
          cases n with
          | mk l u st sel ch =>
            have hsel2 : sel = sp := by simpa [FileNode.selected] using hsel
            subst hsel2
            cases ch with
            | none => simp [toggleFile, FileNode.children]
            | some cs =>
              rw [show toggleFile (FileNode.mk l u st sel (some cs)) =
                  FileNode.mk l u st (!sel) (some (setSelList (!sel) cs)) from rfl]
              simp only [FileNode.children]
              rw [nodeAt_setSelList, Option.map_map]
              rfl
    | cons j p3 =>
      unfold selectedAt at hp
      rw [nodeAt_cons_cons] at hp
      cases hfi : f[i]? with
      | none => rw [hfi] at hp; simp at hp
      | some n =>
        rw [hfi] at hp
        cases n with
        | mk l u st sel ch =>
          cases ch with
          | none => simp [FileNode.children] at hp
          | some cs =>
            simp only [FileNode.children] at hp
            have hp2 : selectedAt cs (j :: p3) = some sp := hp
            unfold selectedAt
            rw [toggleAt_deep]
            rw [show ((i :: j :: p3) ++ r) = i :: ((j :: p3) ++ r) from rfl]
            have hjr : ∃ m rr, (j :: p3) ++ r = m :: rr := ⟨j, p3 ++ r, rfl⟩
            obtain ⟨m, rr, hmrr⟩ := hjr
            rw [hmrr, nodeAt_cons_cons, nodeAt_cons_cons, getElem_opt_modifyIdx_self, hfi]
            simp only [Option.map_some']
            rw [toggleDescend_some]
            simp only [FileNode.children]
            rw [← hmrr]
            have := ih cs hp2
            unfold selectedAt at this
            exact this

/- ## Lemmas: building -/

theorem splitSegsBy_no_sep (p : Char → Bool) (l : List Char)
    (h : ∀ c ∈ l, p c = false) : splitSegsBy p l = [l] := by
  induction l with
  | nil => rfl
  | cons c rest ih =>
    have hc : p c = false := h c (by simp)
    have hrest := ih (fun d hd => h d (List.mem_cons_of_mem c hd))
    simp only [splitSegsBy, hc]
    rw [hrest]
    simp

theorem strMk_data (s : String) : String.mk s.data = s := by
  cases s
  rfl

theorem splitPath_no_sep (p : String) (h : ∀ c ∈ p.data, isSep c = false) :
    splitPath p = [p] := by
  unfold splitPath
  rw [splitSegsBy_no_sep isSep p.data h]
  simp [strMk_data]

theorem sortForest_pair_eq (n : FileNode) (hn : sortNode n = n) :
    sortForest [n, n] = [n, n] := by
  unfold sortForest
  rw [show sortForestAux [n, n] = [sortNode n, sortNode n] from rfl, hn]
  cases h : nodeLE n n <;> simp [insSort, ordInsert, h]

/- ## Claim theorems -/

/-- C1 (amended): generateStructuredText sorts the relative paths for the
directory-listing section only; the per-file content blocks are emitted in
the original input order of the selected paths, one block per path, not in
sorted order. -/
theorem C1_blocks_in_input_order (prov : String → Except String String)
    (uris : List String) :
    generateStructuredText true prov uris =
      summaryText ++ (("# Project Structure\n" ++ treeLoop (sortStrings uris) [] ++ "\n")
        ++ concatAll (uris.map (fileBlock prov))) :=
  generate_decomp prov uris

set_option maxRecDepth 8192 in
/-- C1 counterexample: on the input sequence ["b", "a"] the emitted
document differs from the document on the pre-sorted sequence ["a", "b"].
The two inputs have the same path set, so their directory listings agree;
if the content blocks were emitted in sorted order the outputs would be
equal, so the claim fails at ["b", "a"]: the blocks follow input order. -/
theorem C1_counterexample :
    generateStructuredText true okProv [("b"), ("a")] ≠
      generateStructuredText true okProv [("a"), ("b")] := by decide

/-- C2 (amended): toggle(n); toggle(n) restores n's own selected flag, and
leaves every descendant with n's pre-toggle selected value; descendants
are therefore restored only when they already equalled n's flag, and a
divergent descendant's value is overwritten, not restored. -/
theorem C2_double_toggle (n : FileNode) :
    (toggleFile (toggleFile n)).selected = n.selected ∧
    descendantsAll n.selected (toggleFile (toggleFile n)) = true := by
  cases n with
  | mk l u st sel ch =>
    cases ch with
    | none => simp [toggleFile, FileNode.selected, descendantsAll, FileNode.children]
    | some cs =>
      constructor
      · simp [toggleFile, FileNode.selected]
      · show descendantsAll sel
          (toggleFile (.mk l u st (!sel) (some (setSelList (!sel) cs)))) = true
        simp only [toggleFile, descendantsAll, FileNode.children, Bool.not_not]
        exact allSel_setSelList sel _

/-- C2 counterexample: an unselected directory with one selected child;
after toggling twice the child's selected flag is false, not its
pre-toggle value true, so double toggling does not restore descendants
that diverged from the toggled node. -/
theorem C2_counterexample :
    firstChildSelected exParent = some true ∧
    firstChildSelected (toggleFile (toggleFile exParent)) = some false := by decide

/-- C3 (amended): a duplicate relativePath entry in the input path list is
not a no-op: the second insertion appends a second file Node with the same
relativePath, so the built forest holds two nodes for that path. Stated
for any separator-free path inserted twice. -/
theorem C3_duplicate_appends_second_node (p : String) (sel : Bool)
    (hsep : ∀ c ∈ p.data, isSep c = false) :
    buildFileForest [(p, sel), (p, sel)] =
      some [FileNode.mk p p CState.noneSt sel none,
            FileNode.mk p p CState.noneSt sel none] := by
  have hs := splitPath_no_sep p hsep
  have h1 : insertPath [] ("") (splitPath p) p sel =
      some [FileNode.mk p p CState.noneSt sel none] := by
    rw [hs]; simp [insertPath]
  have h2 : insertPath [FileNode.mk p p CState.noneSt sel none] ("") (splitPath p) p sel =
      some [FileNode.mk p p CState.noneSt sel none,
            FileNode.mk p p CState.noneSt sel none] := by
    rw [hs]; simp [insertPath]
  have h3 : insertAll [] [(p, sel), (p, sel)] =
      some [FileNode.mk p p CState.noneSt sel none,
            FileNode.mk p p CState.noneSt sel none] := by
    simp only [insertAll, h1, h2]
  unfold buildFileForest
  rw [h3]
  rw [Option.map_some']
  rw [sortForest_pair_eq _ rfl]

/-- C3 witness: the duplicate insertion of "a.ts" concretely yields two
root file nodes with the same relativePath. -/
theorem C3_witness :
    (∀ c ∈ ("a.ts").data, isSep c = false) ∧
    buildFileForest [(("a.ts"), true), (("a.ts"), true)] =
      some [FileNode.mk ("a.ts") ("a.ts") CState.noneSt true none,
            FileNode.mk ("a.ts") ("a.ts") CState.noneSt true none] :=
  ⟨by decide, C3_duplicate_appends_second_node ("a.ts") true (by decide)⟩

/-- C3 counterexample: building from the duplicated input ["a.ts", "a.ts"]
yields a forest of two nodes, both with relativePath "a.ts" — not one node
per distinct relativePath, and the second insertion is not a no-op. -/
theorem C3_counterexample :
    (buildFileForest [(("a.ts"), true), (("a.ts"), true)]).map
      (fun f => (f.length, f.map FileNode.uri)) = some (2, [("a.ts"), ("a.ts")]) := by
  decide

/-- C4 (amended): getSelectedFiles returns exactly the uris of the
leaf-like nodes (children absent or empty) whose selected flag is true, in
depth-first order: a directory with at least one child is never included
regardless of its own flag, but a selected directory whose children
sequence is empty or was externally cleared IS included. (The embedding is
a pure function, so repeated calls trivially agree.) -/
theorem C4_selected_files_characterization (f : List FileNode) :
    getSelList f =
      ((preList f).filter (fun m => leafLike m && m.selected)).map FileNode.uri :=
  getSelList_pre f

/-- C4 counterexample: a selected directory node whose children array is
empty is returned by getSelectedFiles, contradicting that directory nodes
are never included. -/
theorem C4_counterexample :
    isDirB (FileNode.mk ("d") ("d") CState.collapsed true (some [])) = true ∧
    getSelList [FileNode.mk ("d") ("d") CState.collapsed true (some [])] = [("d")] := by
  decide

/-- C5: every forest `buildFileTree` produces is recursively ordered: at
every level all directory-kind children precede all file-kind children and
adjacent same-kind children are in ascending label order, at every depth. -/
theorem C5_built_tree_ordered (paths : List (String × Bool)) (f : List FileNode)
    (h : buildFileForest paths = some f) : forestOrd f = true := by
  unfold buildFileForest at h
  cases hi : insertAll [] paths with
  | none => rw [hi] at h; simp at h
  | some f0 =>
    rw [hi, Option.map_some'] at h
    have : sortForest f0 = f := by simpa using h
    rw [← this]
    exact sortForest_ord f0

/-- C5 witness: the tree built from the single path "a/b.ts" satisfies the
ordering invariant. -/
theorem C5_witness :
    forestOrd [FileNode.mk ("a") ("a") CState.collapsed false
      (some [FileNode.mk ("b.ts") ("a/b.ts") CState.noneSt true none])] = true :=
  C5_built_tree_ordered [(("a/b.ts"), true)]
    [FileNode.mk ("a") ("a") CState.collapsed false
      (some [FileNode.mk ("b.ts") ("a/b.ts") CState.noneSt true none])] rfl

/-- C6: the brace-expansion examples of the claim, computed on the
embedded toBraceExpandedPattern: simple alternation, nested groups (set
semantics), a brace-free pattern unchanged, the empty group, whitespace
trimming of alternatives, and duplicate suppression. -/
theorem C6_brace_expansion_examples :
    (toBraceExpandedPattern ("src/{a,b}")).Perm [("src/a"), ("src/b")] ∧
    (toBraceExpandedPattern ("a{b{c,d},e}f")).Perm [("abcf"), ("abdf"), ("aef")] ∧
    toBraceExpandedPattern ("src/file.ts") = [("src/file.ts")] ∧
    toBraceExpandedPattern ("src/{}") = [("src/")] ∧
    toBraceExpandedPattern ("x/{a, b ,c}") = [("x/a"), ("x/b"), ("x/c")] ∧
    toBraceExpandedPattern ("{a,a}") = [("a")] := by decide

/-- C7 (amended): the brace expansion never fails on any input — the code
has no failure path and no MalformedPatternError — and always returns a
nonempty list of expansions; unbalanced braces are not reported, the
unmatched brace characters are kept literally. -/
theorem C7_expansion_never_fails (p : String) : toBraceExpandedPattern p ≠ [] := by
  unfold toBraceExpandedPattern
  simp [expandGo_ne_nil]

/-- C7 counterexample: the pattern "a(brace)b" with an unbalanced opening
brace, on which the claim requires a MalformedPatternError: the expansion
returns normally, with the unmatched brace kept as a literal character. -/
theorem C7_counterexample :
    balancedBraces ("a\x7bb") = false ∧
    toBraceExpandedPattern ("a\x7bb") = [("a\x7bb")] := by decide

/-- C8: toggling the node addressed by p flips its own selected flag,
propagates exactly the flipped value to every node of its subtree, and
changes no selected flag at any address outside its subtree (ancestors and
unrelated nodes keep their flags; in particular a leaf at p, having no
proper descendants, changes nothing else). -/
theorem C8_toggle_propagation_and_frame (f : List FileNode) (p : List Nat) :
    (∀ q, p.isPrefixOf q = false →
      selectedAt (toggleAt f p) q = selectedAt f q) ∧
    selectedAt (toggleAt f p) p = (selectedAt f p).map (fun b => !b) ∧
    (∀ r sp, r ≠ [] → selectedAt f p = some sp →
      selectedAt (toggleAt f p) (p ++ r) = (selectedAt f (p ++ r)).map (fun _ => !sp)) :=
  ⟨fun q h => selectedAt_toggleAt_frame p f q h,
   selectedAt_toggleAt_self p f,
   fun r sp hr hp => selectedAt_toggleAt_descend p r f sp hr hp⟩

/-- C8 witness: toggling the directory at address 0 of the concrete
two-root forest leaves the sibling file's flag unchanged, flips the
directory's own flag, and sets its child to the flipped value. -/
theorem C8_witness :
    (selectedAt (toggleAt exForest [0]) [1] = selectedAt exForest [1]) ∧
    (selectedAt (toggleAt exForest [0]) [0] = (selectedAt exForest [0]).map (fun b => !b)) ∧
    (selectedAt (toggleAt exForest [0]) ([0] ++ [0]) =
      (selectedAt exForest ([0] ++ [0])).map (fun _ => !false)) :=
  ⟨(C8_toggle_propagation_and_frame exForest [0]).1 [1] (by decide),
   (C8_toggle_propagation_and_frame exForest [0]).2.1,
   (C8_toggle_propagation_and_frame exForest [0]).2.2 [0] false (by decide) (by decide)⟩

/-- C9: when reading one selected path fails, its content block is the
begin marker (carrying the path), the inline error notice carrying the
error message in place of the content, and the end marker; that block
appears in the generated document, and the block of every path — in
particular every path whose read succeeds — also appears intact. The
generator is a total function: it returns a document for every input. -/
theorem C9_read_failure_isolated (prov : String → Except String String)
    (uris : List String) (rp e : String) (h1 : rp ∈ uris)
    (h2 : prov rp = Except.error e) :
    fileBlock prov rp =
      "# BEGIN FILE: " ++ rp ++ "\n" ++
        ("((Could not read file content: " ++ e ++ "))\n") ++
        "# END FILE: " ++ rp ++ "\n\n" ∧
    strInfix (fileBlock prov rp) (generateStructuredText true prov uris) ∧
    (∀ q, q ∈ uris → strInfix (fileBlock prov q) (generateStructuredText true prov uris)) := by
  refine ⟨?_, block_infix prov uris rp h1, fun q hq => block_infix prov uris q hq⟩
  simp only [fileBlock, h2]

/-- C9 witness: the read-failure scenario with good.ts and bad.ts, where
reading bad.ts fails: the failing block is the marked error notice and
both blocks occur in the generated document. -/
theorem C9_witness :
    fileBlock exProv ("bad.ts") =
      "# BEGIN FILE: " ++ ("bad.ts") ++ "\n" ++
        ("((Could not read file content: " ++ ("Error: fail to read") ++ "))\n") ++
        "# END FILE: " ++ ("bad.ts") ++ "\n\n" ∧
    strInfix (fileBlock exProv ("bad.ts"))
      (generateStructuredText true exProv [("good.ts"), ("bad.ts")]) ∧
    (∀ q, q ∈ [("good.ts"), ("bad.ts")] →
      strInfix (fileBlock exProv q)
        (generateStructuredText true exProv [("good.ts"), ("bad.ts")])) :=
  C9_read_failure_isolated exProv [("good.ts"), ("bad.ts")] ("bad.ts")
    ("Error: fail to read") (by decide) rfl

/-- C10: getSelectedFiles returns the depth-first pre-order filter of the
selected leaf-like nodes, and on the tree built from the selected paths
"a.txt" and "a/b.txt" it returns ["a/b.txt", "a.txt"] — the directory
subtree before the sibling file — which is not lexicographically sorted
(the sorted order is ["a.txt", "a/b.txt"]). -/
theorem C10_preorder_not_lexicographic :
    (∀ f : List FileNode, getSelList f =
      ((preList f).filter (fun m => leafLike m && m.selected)).map FileNode.uri) ∧
    selectedOfBuild [(("a.txt"), true), (("a/b.txt"), true)] =
      some [("a/b.txt"), ("a.txt")] ∧
    sortStrings [("a/b.txt"), ("a.txt")] ≠ [("a/b.txt"), ("a.txt")] :=
  ⟨getSelList_pre, by decide, by decide⟩
